import Mathlib

/-!
Shallow embedding of the target-scoring and attack-orchestration core of
`complete_pwnagotchi.py` (classes `PwnagotchiAI` and `CompletePwnagotchi`).

Python dicts are modelled as insertion-ordered association lists with the
usual dict semantics: updating an existing key keeps its position, a new key
is appended at the end.  `datetime.now().hour` and timestamps are passed as
explicit parameters; the random draws (`random.random`, `random.choice`) and
the attack collaborator's outcome are passed as explicit oracle inputs.
-/

/-- Lookup in a Python-dict model: first (and, under dict discipline, only)
binding of the key. -/
def dictGet {β : Type} : List (String × β) → String → Option β
  | [], _ => none
  | (k2, v) :: rest, k => if k2 = k then some v else dictGet rest k

/-- Assignment `d[k] = v` on a Python-dict model: replace in place if the key
exists, otherwise append the new binding at the end. -/
def dictSet {β : Type} : List (String × β) → String → β → List (String × β)
  | [], k, v => [(k, v)]
  | (k2, v2) :: rest, k, v =>
      if k2 = k then (k, v) :: rest else (k2, v2) :: dictSet rest k v

/-- Increment for a `defaultdict(int)`: `d[k] += 1` with default 0. -/
def dictIncr (l : List (String × Nat)) (k : String) : List (String × Nat) :=
  dictSet l k ((dictGet l k).getD 0 + 1)

/-- One discovered network, as built by `parse_iwlist_output`. -/
structure Network where
  mac : String
  ssid : String
  channel : Int
  signal : Int
  encryption : String
  deriving Repr, DecidableEq

/-- One entry of `network_history[mac]`, as built by `learn_from_attack`. -/
structure AttemptRecord where
  timestamp : Nat
  success : Bool
  handshake : Bool
  signal : Int
  channel : Int
  hour : Nat
  deriving Repr, DecidableEq

/-- The mutable state of class `PwnagotchiAI`. -/
structure PwnagotchiAI where
  network_history : List (String × List AttemptRecord)
  success_patterns : List (String × Nat)
  learning_rate : ℚ
  exploration_rate : ℚ
  deriving Repr, DecidableEq

/-- `PwnagotchiAI.__init__`: empty defaultdicts, rates 0.1 and 0.3. -/
def initAI : PwnagotchiAI :=
  { network_history := [], success_patterns := [],
    learning_rate := 1 / 10, exploration_rate := 3 / 10 }

/-- Number of entries of a history list with `success` set
(`sum(1 for h in history if h['success'])`). -/
def successCount (history : List AttemptRecord) : Nat :=
  (history.filter (fun h => h.success)).length

/-- `PwnagotchiAI.evaluate_target`.  The sole arithmetic liberty: the source
computes `int(success_rate * 40)` in Python floats with
`success_rate = successes / len(history)`; for every history length up to 60
(histories are capped at 50) the float result coincides with exact
`(40 * successes) / len` under natural floor division, which is what is
written here. -/
def evaluate_target (ai : PwnagotchiAI) (network : Network) (current_hour : Nat) : Int :=
  let score0 : Int := 0
  let score1 := score0 +
    (if network.signal > -50 then 30 else if network.signal > -70 then 20 else 10)
  let score2 := score1 + (if network.encryption ≠ "Open" then 25 else 0)
  let score3 := score2 +
    (match dictGet ai.network_history network.mac with
     | some history =>
         if history ≠ [] then ((40 * successCount history) / history.length : Nat) else 0
     | none => 0)
  let channel_penalty : Int :=
    ((dictGet ai.success_patterns ("channel_" ++ toString network.channel)).getD 0 : Nat)
  let score4 := score3 - min (channel_penalty * 2) 15
  let time_bonus : Int :=
    ((dictGet ai.success_patterns ("hour_" ++ toString current_hour)).getD 0 : Nat)
  let score5 := score4 + min (time_bonus * 3) 20
  max score5 1

/-- Eligibility filter of `select_target`:
`net['encryption'] != 'Open' and net['signal'] > -85`. -/
def eligibleB (net : Network) : Bool :=
  (net.encryption != "Open") && (decide (net.signal > -85))

/-- First-encountered maximum of a nonempty list by a key.  The source
builds `scored_targets`, stable-sorts it descending on the score
(`sort(reverse=True, key=...)`; Python's sort is stable and `reverse=True`
keeps equal elements in encounter order) and takes element 0; that composite
is exactly the first element of maximal key, which this fold computes.  The
same fold also models Python's builtin `max(..., key=...)`, which keeps the
earliest maximal element. -/
def foldMax {α : Type} (key : α → Int) (c : α) (rest : List α) : α :=
  rest.foldl (fun best x => if key x > key best then x else best) c

/-- `PwnagotchiAI.select_target`.  `networks` is `self.networks.values()` in
insertion order; `explore` is the oracle for `random.random() <
self.exploration_rate`; `choice` is the oracle index for `random.choice`
(taken modulo the candidate count). -/
def select_target (ai : PwnagotchiAI) (networks : List Network) (current_hour : Nat)
    (explore : Bool) (choice : Nat) : Option Network :=
  if networks = [] then none
  else
    let candidates := networks.filter eligibleB
    match candidates with
    | [] => none
    | c :: rest =>
        if explore then (c :: rest)[choice % (c :: rest).length]?
        else some (foldMax (fun n => evaluate_target ai n current_hour) c rest)

/-- Truncation `history[-50:]` applied when the list exceeds 50 entries. -/
def capList (h : List AttemptRecord) : List AttemptRecord :=
  if h.length > 50 then h.drop (h.length - 50) else h

/-- `PwnagotchiAI.learn_from_attack`: append the attempt record (defaultdict
creates the list when absent), bump pattern counters on success, then keep
only the last 50 entries. -/
def learn_from_attack (ai : PwnagotchiAI) (network : Network)
    (success handshake_captured : Bool) (timestamp current_hour : Nat) : PwnagotchiAI :=
  let result : AttemptRecord :=
    { timestamp := timestamp, success := success, handshake := handshake_captured,
      signal := network.signal, channel := network.channel, hour := current_hour }
  let hist0 := (dictGet ai.network_history network.mac).getD []
  let hist1 := hist0 ++ [result]
  let patterns :=
    if success then
      dictIncr (dictIncr ai.success_patterns ("channel_" ++ toString network.channel))
        ("hour_" ++ toString current_hour)
    else ai.success_patterns
  { ai with network_history := dictSet ai.network_history network.mac (capList hist1),
            success_patterns := patterns }

/-- Return value of `PwnagotchiAI.get_ai_stats`. -/
structure AIStats where
  total_attacks : Nat
  success_rate : ℚ
  networks_learned : Nat
  best_channel : String
  exploration_rate : ℚ
  deriving Repr, DecidableEq

/-- `PwnagotchiAI.get_ai_stats`.  `max(items, key=lambda x: x[1])[0]` is the
first maximal entry, modelled by `foldMax` on the counter. -/
def get_ai_stats (ai : PwnagotchiAI) : AIStats :=
  let total_attacks := (ai.network_history.map (fun p => p.2.length)).sum
  let total_success := (ai.network_history.map (fun p => successCount p.2)).sum
  { total_attacks := total_attacks
    success_rate :=
      if total_attacks > 0 then (total_success : ℚ) / (total_attacks : ℚ) * 100 else 0
    networks_learned := ai.network_history.length
    best_channel :=
      match ai.success_patterns with
      | [] => "None"
      | p :: rest => (foldMax (fun q => (q.2 : Int)) p rest).1
    exploration_rate := ai.exploration_rate * 100 }

/-- One handshake entry appended on a successful attack. -/
structure Handshake where
  network : String
  mac : String
  timestamp : Nat
  ai_controlled : Bool
  real_capture : Bool
  deriving Repr, DecidableEq

/-- One entry of `self.attacks`. -/
structure AttackRecord where
  target : String
  mac : String
  type : String
  timestamp : Nat
  status : String
  ai_controlled : Bool
  ai_score : Int
  real_attack : Bool
  deriving Repr, DecidableEq

/-- The shared mutable state of class `CompletePwnagotchi` touched by the
claims (display and logging collaborators omitted). -/
structure PwnState where
  mood : String
  epoch : Nat
  networks : List (String × Network)
  handshakes : List Handshake
  attacks : List AttackRecord
  last_ai_target : Option String
  real_attacks_enabled : Bool
  ai : PwnagotchiAI
  deriving Repr, DecidableEq

/-- The attack dict appended by `launch_attack` before execution:
status starts as `'launched'`. -/
def mk_attack (st : PwnState) (network : Network) (ai_controlled : Bool)
    (timestamp current_hour : Nat) : AttackRecord :=
  { target := network.ssid, mac := network.mac,
    type := if ai_controlled then "AI-Attack" else "Manual",
    timestamp := timestamp, status := "launched",
    ai_controlled := ai_controlled,
    ai_score := if ai_controlled then evaluate_target st.ai network current_hour else 0,
    real_attack := st.real_attacks_enabled }

/-- The source mutates the appended attack dict in place; functionally this
rewrites the status of the last list element. -/
def setLastStatus (s : String) : List AttackRecord → List AttackRecord
  | [] => []
  | [a] => [{ a with status := s }]
  | a :: b :: rest => a :: setLastStatus s (b :: rest)

/-- `CompletePwnagotchi.launch_attack`.  `success` is the oracle for the
outcome of `launch_real_attack` (subprocess driven) or of the simulation's
random draw; the attempt having returned, the record's status is set to its
terminal value and `learn_from_attack` is invoked with `success` for both
boolean arguments. -/
def launch_attack (st : PwnState) (network : Network) (ai_controlled : Bool)
    (success : Bool) (timestamp current_hour : Nat) : PwnState :=
  let attack := mk_attack st network ai_controlled timestamp current_hour
  let st1 := { st with mood := "attacking",
                       attacks := st.attacks ++ [attack],
                       last_ai_target :=
                         if ai_controlled then some network.ssid else st.last_ai_target }
  let st2 :=
    if success then
      { st1 with
          handshakes := st1.handshakes ++
            [{ network := network.ssid, mac := network.mac, timestamp := timestamp,
               ai_controlled := ai_controlled, real_capture := st.real_attacks_enabled }],
          attacks := setLastStatus "handshake_captured" st1.attacks,
          mood := "excited" }
    else
      { st1 with
          attacks := setLastStatus "failed" st1.attacks,
          mood := if ai_controlled then "thinking" else "learning" }
  { st2 with ai := learn_from_attack st2.ai network success success timestamp current_hour }

/-- Reply of the attack endpoints: either a launched acknowledgement naming
the target, or the not-found rejection `{'status': 'error', 'message':
'Target not found'}`. -/
inductive ApiResult where
  | launched (status : String) (target : String)
  | notFound (message : String)
  deriving Repr, DecidableEq

/-- Route `/api/attack`: look the MAC up in the network table; launch a
manual attack only when present, otherwise reply not-found and leave the
state untouched. -/
def api_attack (st : PwnState) (mac : String) (success : Bool)
    (timestamp current_hour : Nat) : PwnState × ApiResult :=
  match dictGet st.networks mac with
  | some network =>
      (launch_attack st network false success timestamp current_hour,
       ApiResult.launched "manual_attack_launched" network.ssid)
  | none => (st, ApiResult.notFound "Target not found")

/-- Route `/api/ai-attack`: same lookup guard with `ai_controlled=True`
(the reply also carries the score, which the model folds into the target
string's record; state handling is identical). -/
def api_ai_attack (st : PwnState) (mac : String) (success : Bool)
    (timestamp current_hour : Nat) : PwnState × ApiResult :=
  match dictGet st.networks mac with
  | some network =>
      (launch_attack st network true success timestamp current_hour,
       ApiResult.launched "ai_attack_launched" network.ssid)
  | none => (st, ApiResult.notFound "Target not found")

/-- The state write of `parse_iwlist_output` for one completed network:
`self.networks[current_network['mac']] = current_network` (lines 291 and
325); the parser touches no other component of the shared state. -/
def store_network (st : PwnState) (network : Network) : PwnState :=
  { st with networks := dictSet st.networks network.mac network }

/-- One whole scan merge: every completed observation of the parse is stored
in encounter order. -/
def parse_scan (st : PwnState) (found : List Network) : PwnState :=
  found.foldl store_network st

/-- One invocation of the learning update, bundling the per-call inputs. -/
structure LearnInput where
  network : Network
  success : Bool
  handshake : Bool
  timestamp : Nat
  hour : Nat
  deriving Repr, DecidableEq

/-- Apply one learning update from a bundled input. -/
def learnStep (ai : PwnagotchiAI) (i : LearnInput) : PwnagotchiAI :=
  learn_from_attack ai i.network i.success i.handshake i.timestamp i.hour

/-- The attempt record a given learning input appends. -/
def mkRecord (i : LearnInput) : AttemptRecord :=
  { timestamp := i.timestamp, success := i.success, handshake := i.handshake,
    signal := i.network.signal, channel := i.network.channel, hour := i.hour }

/-- The full sequence of records appended for one identifier by a sequence
of learning updates, in order. -/
def recordsFor (mac : String) (inputs : List LearnInput) : List AttemptRecord :=
  (inputs.filter (fun i => i.network.mac == mac)).map mkRecord

/-- Number of attack-log entries whose status is `'handshake_captured'`. -/
def countCaptured (attacks : List AttackRecord) : Nat :=
  (attacks.filter (fun a => a.status == "handshake_captured")).length

/-- Consistency of the two outcome flags across every retained attempt
record. -/
def flagsConsistent (ai : PwnagotchiAI) : Prop :=
  ∀ p ∈ ai.network_history, ∀ r ∈ p.2, r.success = r.handshake

/-- Claim-side scoring formula, written from the spec's words: signal term,
+25 for non-Open, floor of success-rate times 40 over the full retained
history, minus the clamped channel penalty, plus the clamped hour bonus,
clamped to a minimum of 1. -/
def score_spec (ai : PwnagotchiAI) (network : Network) (current_hour : Nat) : Int :=
  let signalTerm : Int :=
    if network.signal > -50 then 30 else if network.signal > -70 then 20 else 10
  let encTerm : Int := if network.encryption ≠ "Open" then 25 else 0
  let history := (dictGet ai.network_history network.mac).getD []
  let histTerm : Int :=
    if 0 < history.length then
      ⌊((successCount history : ℚ) / (history.length : ℚ)) * 40⌋
    else 0
  let chPen : Int :=
    min (2 * ((dictGet ai.success_patterns ("channel_" ++ toString network.channel)).getD 0 : Int)) 15
  let hourBonus : Int :=
    min (3 * ((dictGet ai.success_patterns ("hour_" ++ toString current_hour)).getD 0 : Int)) 20
  max (signalTerm + encTerm + histTerm - chPen + hourBonus) 1

/-- Claim-side characterisation of the reported best pattern key: the key of
an entry of maximal counter, or the sentinel when the stats are empty. -/
def bestEntrySpec (patterns : List (String × Nat)) (k : String) : Prop :=
  match patterns with
  | [] => k = "None"
  | _ => ∃ v, (k, v) ∈ patterns ∧ ∀ p ∈ patterns, p.2 ≤ v

/-- All retained attempt records across every identifier. -/
def allRecords (ai : PwnagotchiAI) : List AttemptRecord :=
  (ai.network_history.map (fun p => p.2)).flatten

/-- Iterated append-then-cap, the per-identifier effect of a run of learning
updates on one history list. -/
def capFold (h : List AttemptRecord) (rs : List AttemptRecord) : List AttemptRecord :=
  rs.foldl (fun acc r => capList (acc ++ [r])) h

/-- Concrete attempt record used by the evaluation witnesses. -/
def recEx : AttemptRecord :=
  { timestamp := 0, success := true, handshake := true, signal := -45,
    channel := 6, hour := 12 }

/-- Concrete protected network used by the witnesses. -/
def netEx : Network :=
  { mac := "AA:BB:CC:DD:EE:FF", ssid := "TestNet", channel := 6,
    signal := -45, encryption := "WPA/WPA2" }

/-- Concrete open network (ineligible for selection). -/
def netExOpen : Network :=
  { mac := "11:22:33:44:55:66", ssid := "OpenNet", channel := 1,
    signal := -40, encryption := "Open" }

/-- Concrete very weak protected network (ineligible for selection). -/
def netExWeak : Network :=
  { mac := "22:33:44:55:66:77", ssid := "WeakNet", channel := 11,
    signal := -90, encryption := "WPA/WPA2" }

/-- Concrete AI state with one retained record and two pattern counters. -/
def aiEx : PwnagotchiAI :=
  { network_history := [("AA:BB:CC:DD:EE:FF", [recEx])],
    success_patterns := [("channel_6", 2), ("hour_12", 1)],
    learning_rate := 1 / 10, exploration_rate := 3 / 10 }

/-- Variant of `aiEx` differing only in a field the score does not read. -/
def aiEx2 : PwnagotchiAI := { aiEx with exploration_rate := 1 / 2 }

/-- Concrete fresh orchestrator state. -/
def stEx : PwnState :=
  { mood := "learning", epoch := 0, networks := [], handshakes := [],
    attacks := [], last_ai_target := none, real_attacks_enabled := false,
    ai := initAI }

/-- Concrete orchestrator state whose table already holds `netEx`. -/
def stEx2 : PwnState := { stEx with networks := [(netEx.mac, netEx)] }

/-- Reading back the key just assigned yields the assigned value. -/
theorem dictGet_dictSet_self {β : Type} (l : List (String × β)) (k : String) (v : β) :
    dictGet (dictSet l k v) k = some v := by
  induction l with
  | nil => simp [dictGet, dictSet]
  | cons p rest ih =>
    obtain ⟨k2, v2⟩ := p
    by_cases h : k2 = k
    · simp [dictSet, h, dictGet]
    · simp [dictSet, h, dictGet, ih]

/-- Assignment to one key leaves every other key's binding unchanged. -/
theorem dictGet_dictSet_ne {β : Type} (l : List (String × β)) (k k2 : String) (v : β)
    (h : k2 ≠ k) : dictGet (dictSet l k v) k2 = dictGet l k2 := by
  induction l with
  | nil => simp [dictGet, dictSet, Ne.symm h]
  | cons p rest ih =>
    obtain ⟨k3, v3⟩ := p
    by_cases h3 : k3 = k
    · subst h3
      simp [dictSet, dictGet, Ne.symm h]
    · simp [dictSet, h3, dictGet, ih]

/-- Every binding after an assignment was present before or is the assigned
one. -/
theorem mem_dictSet {β : Type} (l : List (String × β)) (k : String) (v : β) (p : String × β)
    (hp : p ∈ dictSet l k v) : p ∈ l ∨ p = (k, v) := by
  induction l with
  | nil =>
    simp [dictSet] at hp
    right
    exact hp
  | cons q rest ih =>
    obtain ⟨k2, v2⟩ := q
    by_cases h : k2 = k
    · simp only [dictSet, if_pos h] at hp
      rcases List.mem_cons.mp hp with hh | hh
      · right; exact hh
      · left; exact List.mem_cons_of_mem _ hh
    · simp only [dictSet, if_neg h] at hp
      rcases List.mem_cons.mp hp with hh | hh
      · left; exact hh ▸ List.mem_cons_self _ _
      · rcases ih hh with hh2 | hh2
        · left; exact List.mem_cons_of_mem _ hh2
        · right; exact hh2

/-- A successful lookup exhibits a binding of the list. -/
theorem dictGet_mem {β : Type} (l : List (String × β)) (k : String) (v : β)
    (h : dictGet l k = some v) : (k, v) ∈ l := by
  induction l with
  | nil => simp [dictGet] at h
  | cons q rest ih =>
    obtain ⟨k2, v2⟩ := q
    by_cases hk : k2 = k
    · subst hk
      simp [dictGet] at h
      subst h
      exact List.mem_cons_self _ _
    · simp [dictGet, hk] at h
      exact List.mem_cons_of_mem _ (ih h)

/-- Length of the truncated history. -/
theorem capList_length (h : List AttemptRecord) : (capList h).length = min h.length 50 := by
  unfold capList
  by_cases hl : h.length > 50
  · rw [if_pos hl, List.length_drop]
    omega
  · rw [if_neg hl]
    omega

/-- Truncation keeps a suffix of the history. -/
theorem capList_suffix (h : List AttemptRecord) : capList h <:+ h := by
  unfold capList
  by_cases hl : h.length > 50
  · rw [if_pos hl]
    exact List.drop_suffix _ _
  · rw [if_neg hl]

/-- Length of an iterated append-then-cap run. -/
theorem capFold_length (rs : List AttemptRecord) :
    ∀ h : List AttemptRecord, h.length ≤ 50 →
      (capFold h rs).length = min (h.length + rs.length) 50 := by
  induction rs with
  | nil =>
    intro h hh
    simp [capFold]
    omega
  | cons r rest ih =>
    intro h hh
    have hstep : capFold h (r :: rest) = capFold (capList (h ++ [r])) rest := rfl
    rw [hstep, ih _ (by rw [capList_length]; omega), capList_length]
    simp only [List.length_append, List.length_cons, List.length_nil]
    omega

/-- An iterated append-then-cap run retains a suffix of everything fed in. -/
theorem capFold_suffix (rs : List AttemptRecord) :
    ∀ h : List AttemptRecord, capFold h rs <:+ h ++ rs := by
  induction rs with
  | nil =>
    intro h
    simp [capFold]
  | cons r rest ih =>
    intro h
    have hstep : capFold h (r :: rest) = capFold (capList (h ++ [r])) rest := rfl
    rw [hstep]
    have h1 : capFold (capList (h ++ [r])) rest <:+ capList (h ++ [r]) ++ rest := ih _
    have h2 : capList (h ++ [r]) ++ rest <:+ (h ++ [r]) ++ rest := by
      obtain ⟨t, ht⟩ := capList_suffix (h ++ [r])
      exact ⟨t, by rw [← List.append_assoc, ht]⟩
    have h3 : (h ++ [r]) ++ rest = h ++ r :: rest := by simp
    rw [h3] at h2
    exact h1.trans h2

/-- The natural floor division used in the embedding agrees with the floor
of the rational success rate scaled by 40. -/
theorem natDiv_eq_floor_rate (s n : Nat) (hn : 0 < n) :
    (((40 * s) / n : Nat) : Int) = ⌊((s : ℚ) / (n : ℚ)) * 40⌋ := by
  have h1 : ((s : ℚ) / (n : ℚ)) * 40 = ((40 * s : Nat) : ℚ) / ((n : Nat) : ℚ) := by
    push_cast
    ring
  have h2 : (⌊((40 * s : Nat) : ℚ) / ((n : Nat) : ℚ)⌋₊ : ℕ) = (40 * s) / n :=
    Nat.floor_div_eq_div _ _
  have h3 : (0 : ℚ) ≤ ((40 * s : Nat) : ℚ) / ((n : Nat) : ℚ) := by positivity
  rw [h1, ← Int.natCast_floor_eq_floor h3, h2]

/-- The seed's key never exceeds the fold's result key. -/
theorem key_le_foldMax {α : Type} (key : α → Int) (c : α) (rest : List α) :
    key c ≤ key (foldMax key c rest) := by
  induction rest generalizing c with
  | nil => simp [foldMax]
  | cons b bs ih =>
    have hstep : foldMax key c (b :: bs) = foldMax key (if key b > key c then b else c) bs := rfl
    rw [hstep]
    by_cases h : key b > key c
    · rw [if_pos h]
      exact le_of_lt (lt_of_lt_of_le h (ih b))
    · rw [if_neg h]
      exact ih c

/-- The fold returns the first-encountered element of maximal key: strictly
larger than everything before it, at least as large as everything after. -/
theorem foldMax_decomp {α : Type} (key : α → Int) (c : α) (rest : List α) :
    ∃ l1 l2, c :: rest = l1 ++ foldMax key c rest :: l2 ∧
      (∀ x ∈ l1, key x < key (foldMax key c rest)) ∧
      (∀ x ∈ l2, key x ≤ key (foldMax key c rest)) := by
  induction rest generalizing c with
  | nil => exact ⟨[], [], rfl, by simp, by simp⟩
  | cons b bs ih =>
    have hstep : foldMax key c (b :: bs) = foldMax key (if key b > key c then b else c) bs := rfl
    by_cases hbc : key b > key c
    · rw [hstep, if_pos hbc]
      obtain ⟨l1, l2, heq, h1, h2⟩ := ih b
      refine ⟨c :: l1, l2, by rw [List.cons_append, ← heq], ?_, h2⟩
      intro x hx
      rcases List.mem_cons.mp hx with rfl | hxl
      · exact lt_of_lt_of_le hbc (key_le_foldMax key b bs)
      · exact h1 x hxl
    · rw [hstep, if_neg hbc]
      obtain ⟨l1, l2, heq, h1, h2⟩ := ih c
      cases l1 with
      | nil =>
        simp only [List.nil_append] at heq
        obtain ⟨hc, hbs⟩ := List.cons.inj heq
        refine ⟨[], b :: l2, ?_, by simp, ?_⟩
        · simp [← hc, ← hbs]
        · intro x hx
          rcases List.mem_cons.mp hx with rfl | hxl
          · rw [← hc]
            exact le_of_not_lt hbc
          · exact h2 x hxl
      | cons a l1t =>
        simp only [List.cons_append] at heq
        obtain ⟨hc, hbs⟩ := List.cons.inj heq
        refine ⟨c :: b :: l1t, l2, ?_, ?_, h2⟩
        · rw [List.cons_append, List.cons_append, ← hbs]
        · have hcm : key c < key (foldMax key c bs) := by
            have ha := h1 a (List.mem_cons_self _ _)
            rw [← hc] at ha
            exact ha
          intro x hx
          rcases List.mem_cons.mp hx with rfl | hx2
          · exact hcm
          · rcases List.mem_cons.mp hx2 with rfl | hx3
            · exact lt_of_le_of_lt (le_of_not_lt hbc) hcm
            · exact h1 x (List.mem_cons_of_mem _ hx3)

/-- Membership and maximality of the fold's result. -/
theorem foldMax_mem_le {α : Type} (key : α → Int) (c : α) (rest : List α) :
    foldMax key c rest ∈ c :: rest ∧ ∀ x ∈ c :: rest, key x ≤ key (foldMax key c rest) := by
  obtain ⟨l1, l2, heq, h1, h2⟩ := foldMax_decomp key c rest
  constructor
  · rw [heq]
    exact List.mem_append_right _ (List.mem_cons_self _ _)
  · intro x hx
    rw [heq] at hx
    rcases List.mem_append.mp hx with hx1 | hx2
    · exact le_of_lt (h1 x hx1)
    · rcases List.mem_cons.mp hx2 with rfl | hx3
      · exact le_refl _
      · exact h2 x hx3

/-- The learning update rewrites exactly the attacked identifier's history:
append the new record, then cap. -/
theorem learn_history_same (ai : PwnagotchiAI) (network : Network)
    (success handshake_captured : Bool) (timestamp current_hour : Nat) :
    dictGet (learn_from_attack ai network success handshake_captured
        timestamp current_hour).network_history network.mac =
      some (capList ((dictGet ai.network_history network.mac).getD [] ++
        [{ timestamp := timestamp, success := success, handshake := handshake_captured,
           signal := network.signal, channel := network.channel,
           hour := current_hour }])) := by
  simp [learn_from_attack, dictGet_dictSet_self]

/-- The learning update leaves every other identifier's history unchanged. -/
theorem learn_history_other (ai : PwnagotchiAI) (network : Network)
    (success handshake_captured : Bool) (timestamp current_hour : Nat) (mac2 : String)
    (h : mac2 ≠ network.mac) :
    dictGet (learn_from_attack ai network success handshake_captured
        timestamp current_hour).network_history mac2 =
      dictGet ai.network_history mac2 := by
  simp [learn_from_attack, dictGet_dictSet_ne _ _ _ _ h]

/-- A run of learning updates acts on each identifier's history as the
iterated append-then-cap of exactly the records appended for it. -/
theorem foldl_learnStep_lookup (inputs : List LearnInput) :
    ∀ (ai : PwnagotchiAI) (mac : String),
      (dictGet (inputs.foldl learnStep ai).network_history mac).getD [] =
        capFold ((dictGet ai.network_history mac).getD []) (recordsFor mac inputs) := by
  induction inputs with
  | nil =>
    intro ai mac
    simp [recordsFor, capFold]
  | cons i rest ih =>
    intro ai mac
    have hstep : (i :: rest).foldl learnStep ai = rest.foldl learnStep (learnStep ai i) := rfl
    rw [hstep, ih]
    by_cases h : i.network.mac = mac
    · have hr : recordsFor mac (i :: rest) = mkRecord i :: recordsFor mac rest := by
        simp [recordsFor, List.filter_cons, h]
      have hc : capFold ((dictGet ai.network_history mac).getD [])
          (mkRecord i :: recordsFor mac rest) =
          capFold (capList ((dictGet ai.network_history mac).getD [] ++ [mkRecord i]))
            (recordsFor mac rest) := rfl
      rw [hr, hc]
      have hl : dictGet (learnStep ai i).network_history mac =
          some (capList ((dictGet ai.network_history mac).getD [] ++ [mkRecord i])) := by
        rw [← h]
        exact learn_history_same ai i.network i.success i.handshake i.timestamp i.hour
      rw [hl]
      rfl
    · have hr : recordsFor mac (i :: rest) = recordsFor mac rest := by
        simp [recordsFor, List.filter_cons, h]
      rw [hr]
      have hl : dictGet (learnStep ai i).network_history mac =
          dictGet ai.network_history mac :=
        learn_history_other ai i.network i.success i.handshake i.timestamp i.hour mac
          (fun hh => h hh.symm)
      rw [hl]

/-- Rewriting the status of the last element after an append. -/
theorem setLastStatus_append (s : String) (l : List AttackRecord) (a : AttackRecord) :
    setLastStatus s (l ++ [a]) = l ++ [{ a with status := s }] := by
  induction l with
  | nil => rfl
  | cons b rest ih =>
    cases rest with
    | nil => rfl
    | cons c rest2 =>
      have h1 : (b :: c :: rest2) ++ [a] = b :: ((c :: rest2) ++ [a]) := rfl
      have h2 : (c :: rest2) ++ [a] = c :: (rest2 ++ [a]) := rfl
      rw [h1, h2]
      have h3 : setLastStatus s (b :: c :: (rest2 ++ [a])) =
          b :: setLastStatus s (c :: (rest2 ++ [a])) := rfl
      rw [h3, ← h2, ih]
      rfl

/-- Net effect of `launch_attack` on the attack log: one record appended,
already carrying its terminal status. -/
theorem launch_attack_attacks (st : PwnState) (network : Network)
    (ai_controlled success : Bool) (timestamp current_hour : Nat) :
    (launch_attack st network ai_controlled success timestamp current_hour).attacks =
      st.attacks ++ [{ mk_attack st network ai_controlled timestamp current_hour with
                       status := if success then "handshake_captured" else "failed" }] := by
  cases success <;> simp [launch_attack, learn_from_attack, setLastStatus_append]

/-- Net effect of `launch_attack` on the handshake list: one entry appended
exactly on success. -/
theorem launch_attack_handshakes (st : PwnState) (network : Network)
    (ai_controlled success : Bool) (timestamp current_hour : Nat) :
    (launch_attack st network ai_controlled success timestamp current_hour).handshakes =
      if success then
        st.handshakes ++
          [{ network := network.ssid, mac := network.mac, timestamp := timestamp,
             ai_controlled := ai_controlled, real_capture := st.real_attacks_enabled }]
      else st.handshakes := by
  cases success <;> simp [launch_attack, learn_from_attack]

/-- The AI state after `launch_attack` is the learning update applied with
the attempt's success flag passed for both booleans. -/
theorem launch_attack_ai (st : PwnState) (network : Network)
    (ai_controlled success : Bool) (timestamp current_hour : Nat) :
    (launch_attack st network ai_controlled success timestamp current_hour).ai =
      learn_from_attack st.ai network success success timestamp current_hour := by
  cases success <;> simp [launch_attack]

/-- Counting captured-handshake records across an append of one record. -/
theorem countCaptured_append (l : List AttackRecord) (a : AttackRecord) :
    countCaptured (l ++ [a]) =
      countCaptured l + (if a.status = "handshake_captured" then 1 else 0) := by
  by_cases h : a.status = "handshake_captured" <;>
    simp [countCaptured, List.filter_append, h]

/-- Success counting distributes over flattening. -/
theorem successCount_flatten (L : List (List AttemptRecord)) :
    successCount L.flatten = (L.map successCount).sum := by
  induction L with
  | nil => rfl
  | cons h t ih =>
    simp [successCount, List.filter_append] at *
    omega

/-- Scan merging never touches the AI state (network history or pattern
stats). -/
theorem parse_scan_ai (found : List Network) :
    ∀ st : PwnState, (parse_scan st found).ai = st.ai := by
  induction found with
  | nil =>
    intro st
    rfl
  | cons n rest ih =>
    intro st
    have hstep : parse_scan st (n :: rest) = parse_scan (store_network st n) rest := rfl
    rw [hstep, ih]
    rfl

/-- C1: for every observation, per-identifier ledger history, pattern stats
and current hour, the score of `evaluate_target` equals the spec's sum — the
signal term (+30 above -50 dBm, +20 above -70 dBm, else +10), +25 for
non-Open encryption, the floor of success-rate times 40 over the full
retained history when the identifier has prior attempts, minus the clamped
channel penalty min(2·stats, 15), plus the clamped hour bonus min(3·stats,
20) — clamped to a minimum of 1; it is at least 1 and deterministic in
exactly those inputs. -/
theorem evaluate_target_score_correct (ai : PwnagotchiAI) (network : Network)
    (current_hour : Nat) :
    evaluate_target ai network current_hour = score_spec ai network current_hour ∧
    1 ≤ evaluate_target ai network current_hour ∧
    (∀ ai2 : PwnagotchiAI,
      dictGet ai2.network_history network.mac = dictGet ai.network_history network.mac →
      ai2.success_patterns = ai.success_patterns →
      evaluate_target ai2 network current_hour = evaluate_target ai network current_hour) := by
  refine ⟨?_, le_max_right _ _, ?_⟩
  · unfold evaluate_target score_spec
    cases hm : dictGet ai.network_history network.mac with
    | none =>
      simp only [hm, Option.getD_none, List.length_nil]
      omega
    | some history =>
      by_cases hh : history = []
      · subst hh
        simp only [hm, Option.getD_some, List.length_nil, ne_eq, not_true_eq_false,
          if_false, lt_irrefl, if_neg]
        omega
      · have hlen : 0 < history.length := List.length_pos.mpr hh
        simp only [hm, Option.getD_some, ne_eq, hh, not_false_eq_true, if_true, hlen,
          if_pos]
        rw [← natDiv_eq_floor_rate (successCount history) history.length hlen]
        generalize (((40 * successCount history) / history.length : Nat) : Int) = q
        omega
  · intro ai2 h1 h2
    unfold evaluate_target
    rw [h1, h2]

/-- C1 witness: the theorem applied at a concrete AI state, network and
hour, with the determinism clause discharged against a state differing only
in the exploration rate. -/
theorem evaluate_target_score_correct_witness :
    evaluate_target aiEx netEx 12 = score_spec aiEx netEx 12 ∧
    1 ≤ evaluate_target aiEx netEx 12 ∧
    evaluate_target aiEx2 netEx 12 = evaluate_target aiEx netEx 12 := by
  obtain ⟨h1, h2, h3⟩ := evaluate_target_score_correct aiEx netEx 12
  exact ⟨h1, h2, h3 aiEx2 rfl rfl⟩

/-- C2: the selection policy treats as eligible exactly the observations
with encryption different from Open and signal above -85 dBm; any returned
target (exploring or not) passes that filter, so an Open or weak network is
never selected; the result is none exactly when the eligible set is empty;
and in the non-exploration branch the returned candidate scores strictly
above every earlier eligible candidate and at least as high as every later
one — the first-encountered maximum. -/
theorem select_target_policy (ai : PwnagotchiAI) (networks : List Network)
    (current_hour : Nat) (explore : Bool) (choice : Nat) :
    (select_target ai networks current_hour explore choice = none ↔
      networks.filter eligibleB = []) ∧
    (∀ t, select_target ai networks current_hour explore choice = some t →
      t ∈ networks.filter eligibleB ∧ t.encryption ≠ "Open" ∧ -85 < t.signal) ∧
    (explore = false → ∀ t, select_target ai networks current_hour explore choice = some t →
      ∃ l1 l2, networks.filter eligibleB = l1 ++ t :: l2 ∧
        (∀ c ∈ l1, evaluate_target ai c current_hour < evaluate_target ai t current_hour) ∧
        (∀ c ∈ l2, evaluate_target ai c current_hour ≤ evaluate_target ai t current_hour)) := by
  by_cases hn : networks = []
  · subst hn
    exact ⟨by simp [select_target], fun t ht => by simp [select_target] at ht,
           fun _ t ht => by simp [select_target] at ht⟩
  · cases hc : networks.filter eligibleB with
    | nil =>
      have hsel : select_target ai networks current_hour explore choice = none := by
        simp [select_target, hn, hc]
      exact ⟨by simp [hsel, hc], fun t ht => by simp [hsel] at ht,
             fun _ t ht => by simp [hsel] at ht⟩
    | cons c rest =>
      have hidx : choice % (c :: rest).length < (c :: rest).length :=
        Nat.mod_lt _ (Nat.succ_pos _)
      have hsel : select_target ai networks current_hour explore choice =
          if explore then (c :: rest)[choice % (c :: rest).length]?
          else some (foldMax (fun n => evaluate_target ai n current_hour) c rest) := by
        simp [select_target, hn, hc]
      have hsome : ∃ u, select_target ai networks current_hour explore choice = some u ∧
          u ∈ c :: rest := by
        rw [hsel]
        cases explore with
        | true =>
          rw [if_pos rfl, List.getElem?_eq_getElem hidx]
          exact ⟨_, rfl, List.getElem_mem _⟩
        | false =>
          rw [if_neg (by simp)]
          exact ⟨_, rfl, (foldMax_mem_le _ c rest).1⟩
      obtain ⟨u, hu, hum⟩ := hsome
      have hum2 : u ∈ networks.filter eligibleB := by
        rw [hc]
        exact hum
      refine ⟨?_, ?_, ?_⟩
      · rw [hu]
        simp
      · intro t ht
        have hut : u = t := by
          rw [hu] at ht
          exact Option.some.inj ht
        subst hut
        obtain ⟨-, hb⟩ := List.mem_filter.mp hum2
        simp only [eligibleB, Bool.and_eq_true, bne_iff_ne, ne_eq,
          decide_eq_true_eq] at hb
        exact ⟨hum, hb.1, hb.2⟩
      · intro hex t ht
        subst hex
        rw [hsel, if_neg (by simp)] at ht
        have htm : t = foldMax (fun n => evaluate_target ai n current_hour) c rest :=
          (Option.some.inj ht).symm
        obtain ⟨l1, l2, heq, h1, h2⟩ :=
          foldMax_decomp (fun n => evaluate_target ai n current_hour) c rest
        refine ⟨l1, l2, ?_, ?_, ?_⟩
        · rw [htm]
          exact heq
        · intro x hx
          rw [htm]
          exact h1 x hx
        · intro x hx
          rw [htm]
          exact h2 x hx

/-- C2 witness: on the concrete candidate list holding an open, a protected
and a very weak network, the protected one is returned by the greedy branch,
is eligible, and is the first-encountered maximum. -/
theorem select_target_policy_witness :
    (netEx ∈ [netExOpen, netEx, netExWeak].filter eligibleB ∧
      netEx.encryption ≠ "Open" ∧ -85 < netEx.signal) ∧
    (∃ l1 l2, [netExOpen, netEx, netExWeak].filter eligibleB = l1 ++ netEx :: l2 ∧
      (∀ c ∈ l1, evaluate_target aiEx c 12 < evaluate_target aiEx netEx 12) ∧
      (∀ c ∈ l2, evaluate_target aiEx c 12 ≤ evaluate_target aiEx netEx 12)) :=
  ⟨(select_target_policy aiEx [netExOpen, netEx, netExWeak] 12 false 0).2.1 netEx
      (by decide),
   (select_target_policy aiEx [netExOpen, netEx, netExWeak] 12 false 0).2.2 rfl netEx
      (by decide)⟩

/-- C3: after any sequence of learning updates starting from the fresh AI
state, every identifier's ledger history has length at most 50 — exactly
min(total appended, 50) — and is a suffix, in original order, of the full
sequence of records appended for that identifier, so on overflow the oldest
entries are dropped first. -/
theorem ledger_cap_fifo (inputs : List LearnInput) (mac : String) :
    ((dictGet (inputs.foldl learnStep initAI).network_history mac).getD []).length ≤ 50 ∧
    ((dictGet (inputs.foldl learnStep initAI).network_history mac).getD []).length =
      min (recordsFor mac inputs).length 50 ∧
    (dictGet (inputs.foldl learnStep initAI).network_history mac).getD [] <:+
      recordsFor mac inputs := by
  have hbase : (dictGet initAI.network_history mac).getD [] = [] := rfl
  have h := foldl_learnStep_lookup inputs initAI mac
  rw [hbase] at h
  have hlen : (capFold [] (recordsFor mac inputs)).length =
      min (recordsFor mac inputs).length 50 := by
    have := capFold_length (recordsFor mac inputs) [] (by simp)
    simpa using this
  have hsuf : capFold [] (recordsFor mac inputs) <:+ recordsFor mac inputs := by
    have := capFold_suffix (recordsFor mac inputs) []
    simpa using this
  rw [h]
  exact ⟨by omega, hlen, hsuf⟩

/-- C4: the attack record is created with status launched; after the attempt
returns, `launch_attack` leaves the log equal to the old log plus that one
record now carrying its terminal status — handshake captured on success,
failed otherwise — so the only transition is launched to a terminal status,
no pre-existing record is touched, and no record stays launched once its
attempt has returned. -/
theorem attack_status_lifecycle (st : PwnState) (network : Network)
    (ai_controlled success : Bool) (timestamp current_hour : Nat) :
    (mk_attack st network ai_controlled timestamp current_hour).status = "launched" ∧
    (launch_attack st network ai_controlled success timestamp current_hour).attacks =
      st.attacks ++ [{ mk_attack st network ai_controlled timestamp current_hour with
                       status := if success then "handshake_captured" else "failed" }] ∧
    (if success then "handshake_captured" else "failed") ≠ "launched" ∧
    ((if success then "handshake_captured" else "failed") = "handshake_captured" ∨
      (if success then "handshake_captured" else "failed") = "failed") := by
  refine ⟨rfl, launch_attack_attacks st network ai_controlled success timestamp current_hour,
    ?_, ?_⟩
  · cases success <;> simp
  · cases success <;> simp

/-- C6: an attack command for a MAC absent from the network table is
rejected with the not-found reply by both the manual and the AI endpoint,
and the whole program state — network table, attack log, handshake list,
ledger, pattern stats, mood — is returned unchanged. -/
theorem unknown_target_rejected (st : PwnState) (mac : String) (success : Bool)
    (timestamp current_hour : Nat) (h : dictGet st.networks mac = none) :
    api_attack st mac success timestamp current_hour =
      (st, ApiResult.notFound "Target not found") ∧
    api_ai_attack st mac success timestamp current_hour =
      (st, ApiResult.notFound "Target not found") := by
  constructor <;> simp [api_attack, api_ai_attack, h]

/-- C6 witness: the rejection applied at the fresh state, whose table is
empty. -/
theorem unknown_target_rejected_witness :
    api_attack stEx "FF:FF:FF:FF:FF:FF" true 0 12 =
      (stEx, ApiResult.notFound "Target not found") ∧
    api_ai_attack stEx "FF:FF:FF:FF:FF:FF" true 0 12 =
      (stEx, ApiResult.notFound "Target not found") :=
  unknown_target_rejected stEx "FF:FF:FF:FF:FF:FF" true 0 12 rfl

/-- C7: the aggregate statistics report the total number of retained attempt
records, the overall success rate over those records (as a percentage, zero
when there are none), the number of distinct identifiers with history, a
pattern-stats key of maximal counter (the sentinel when the stats are
empty), and the configured exploration rate (as a percentage). -/
theorem get_ai_stats_report (ai : PwnagotchiAI) :
    (get_ai_stats ai).total_attacks = (allRecords ai).length ∧
    (get_ai_stats ai).success_rate =
      (if (allRecords ai).length = 0 then 0
       else (successCount (allRecords ai) : ℚ) / ((allRecords ai).length : ℚ) * 100) ∧
    (get_ai_stats ai).networks_learned = ai.network_history.length ∧
    bestEntrySpec ai.success_patterns (get_ai_stats ai).best_channel ∧
    (get_ai_stats ai).exploration_rate = ai.exploration_rate * 100 := by
  have htot : (allRecords ai).length = (ai.network_history.map (fun p => p.2.length)).sum := by
    unfold allRecords
    rw [List.length_flatten, List.map_map]
    rfl
  have hsucc : successCount (allRecords ai) =
      (ai.network_history.map (fun p => successCount p.2)).sum := by
    unfold allRecords
    rw [successCount_flatten, List.map_map]
    rfl
  refine ⟨htot.symm, ?_, rfl, ?_, rfl⟩
  · have hrate : (get_ai_stats ai).success_rate =
        if (allRecords ai).length > 0 then
          (successCount (allRecords ai) : ℚ) / ((allRecords ai).length : ℚ) * 100
        else 0 := by
      simp only [get_ai_stats, htot, hsucc]
    rw [hrate]
    by_cases h0 : (allRecords ai).length = 0
    · simp [h0]
    · rw [if_pos (Nat.pos_of_ne_zero h0), if_neg h0]
  · unfold bestEntrySpec
    cases hp : ai.success_patterns with
    | nil => simp [get_ai_stats, hp]
    | cons p rest =>
      have hbc : (get_ai_stats ai).best_channel =
          (foldMax (fun q => (q.2 : Int)) p rest).1 := by
        simp [get_ai_stats, hp]
      rw [hbc]
      obtain ⟨hmem, hle⟩ := foldMax_mem_le (fun q => ((q.2 : Nat) : Int)) p rest
      refine ⟨(foldMax (fun q => (q.2 : Int)) p rest).2, ?_, ?_⟩
      · simpa using hmem
      · intro q hq
        exact_mod_cast hle q hq

/-- C8: storing a re-observed identifier replaces its network-table entry
with the new observation, leaves every other entry's binding unchanged, and
neither the single store nor a whole scan merge touches the AI state, so no
ledger history is reset or shortened. -/
theorem rescan_keeps_ledger (st : PwnState) (network : Network)
    (hp : (dictGet st.networks network.mac).isSome = true) :
    dictGet (store_network st network).networks network.mac = some network ∧
    (store_network st network).ai = st.ai ∧
    (∀ mac2, mac2 ≠ network.mac →
      dictGet (store_network st network).networks mac2 = dictGet st.networks mac2) ∧
    (∀ found : List Network, (parse_scan st found).ai = st.ai) := by
  refine ⟨dictGet_dictSet_self _ _ _, rfl, ?_, fun found => parse_scan_ai found st⟩
  intro mac2 h2
  exact dictGet_dictSet_ne _ _ _ _ h2

/-- C8 witness: the replacement and ledger frame applied at a state whose
table already holds the re-observed network. -/
theorem rescan_keeps_ledger_witness :
    dictGet (store_network stEx2 netEx).networks netEx.mac = some netEx ∧
    (store_network stEx2 netEx).ai = stEx2.ai ∧
    dictGet (store_network stEx2 netEx).networks "ZZ" = dictGet stEx2.networks "ZZ" := by
  obtain ⟨h1, h2, h3, h4⟩ := rescan_keeps_ledger stEx2 netEx (by decide)
  exact ⟨h1, h2, h3 "ZZ" (by decide)⟩

/-- Flag consistency is preserved by a learning update invoked with one and
the same boolean for success and handshake. -/
theorem learn_preserves_flags (ai : PwnagotchiAI) (network : Network) (b : Bool)
    (timestamp current_hour : Nat) (h : flagsConsistent ai) :
    flagsConsistent (learn_from_attack ai network b b timestamp current_hour) := by
  intro p hp r hr
  have hnh : (learn_from_attack ai network b b timestamp current_hour).network_history =
      dictSet ai.network_history network.mac
        (capList ((dictGet ai.network_history network.mac).getD [] ++
          [{ timestamp := timestamp, success := b, handshake := b,
             signal := network.signal, channel := network.channel,
             hour := current_hour }])) := rfl
  rw [hnh] at hp
  rcases mem_dictSet _ _ _ _ hp with hold | hnew
  · exact h p hold r hr
  · subst hnew
    have hr2 : r ∈ (dictGet ai.network_history network.mac).getD [] ++
        [{ timestamp := timestamp, success := b, handshake := b,
           signal := network.signal, channel := network.channel,
           hour := current_hour }] :=
      (capList_suffix _).subset hr
    rcases List.mem_append.mp hr2 with hr3 | hr4
    · cases hg : dictGet ai.network_history network.mac with
      | none =>
        rw [hg] at hr3
        simp at hr3
      | some l =>
        rw [hg] at hr3
        exact h (network.mac, l) (dictGet_mem _ _ _ hg) r hr3
    · simp only [List.mem_singleton] at hr4
      subst hr4
      rfl

/-- C9: after any attack launch, every attempt record retained in the
ledger has equal succeeded and handshake-captured flags, because the
learning update is invoked with the same boolean for both; a record with
differing flags can never be created. -/
theorem ledger_flags_equal (st : PwnState) (network : Network)
    (ai_controlled success : Bool) (timestamp current_hour : Nat)
    (h : flagsConsistent st.ai) :
    flagsConsistent
      (launch_attack st network ai_controlled success timestamp current_hour).ai := by
  rw [launch_attack_ai]
  exact learn_preserves_flags st.ai network success timestamp current_hour h

/-- C9 witness: flag consistency after a launch from the fresh state, whose
empty ledger is trivially consistent. -/
theorem ledger_flags_equal_witness :
    flagsConsistent (launch_attack stEx netEx true true 0 12).ai :=
  ledger_flags_equal stEx netEx true true 0 12
    (by intro p hp; simp [stEx, initAI] at hp)

/-- C10: when no attack is mid-execution, the handshake-list length equals
the number of attack records with status handshake captured: each launch
appends one handshake entry exactly when it sets its one new record to that
status, and touches nothing else in either collection. -/
theorem handshake_count_matches (st : PwnState) (network : Network)
    (ai_controlled success : Bool) (timestamp current_hour : Nat)
    (h : st.handshakes.length = countCaptured st.attacks) :
    (launch_attack st network ai_controlled success timestamp
        current_hour).handshakes.length =
      countCaptured
        (launch_attack st network ai_controlled success timestamp current_hour).attacks := by
  cases success with
  | true =>
    rw [launch_attack_attacks, launch_attack_handshakes, countCaptured_append]
    simp [h]
  | false =>
    rw [launch_attack_attacks, launch_attack_handshakes, countCaptured_append]
    simp [h]

/-- C10 witness: the count equality after a successful launch from the
fresh state, whose collections are empty. -/
theorem handshake_count_matches_witness :
    (launch_attack stEx netEx false true 0 12).handshakes.length =
      countCaptured (launch_attack stEx netEx false true 0 12).attacks :=
  handshake_count_matches stEx netEx false true 0 12 rfl
